import Mathlib

/-!
Shallow embedding of the template-permutation engine of
`src/templates_to_examples.py` (MoreiraP12/MedicalMCP), together with the
surrounding `__main__` passes (placeholder collection, example fetching with a
cache, alias combination, and per-template generation), and proofs of the
specification claims about them.

Python strings are modelled as `List Char`; the candidate dictionary
(a `defaultdict(list)`) is modelled as an association list threaded through
the functions so that mutation (or its absence) is visible.  Machine-level
recursion that is not structural in Python (repeated `str.replace`,
regex scanning) is implemented with an explicit fuel argument equal to the
string length, which is proved sufficient, so that every definition is
executable by kernel reduction.
-/

set_option autoImplicit false

namespace MedMCP

/-- Python strings are lists of characters. -/
abbrev Str := List Char

/-- Boolean test that `pat` is a prefix of `s` (character by character). -/
def headMatch : Str → Str → Bool
  | [], _ => true
  | _ :: _, [] => false
  | p :: ps, c :: cs => p = c && headMatch ps cs

/-- Scan for the closing bracket of a `re` match of `\[(.*?)\]` starting just
after a `[`: returns the captured content (the characters before the first
`]`) and the remainder after that `]`.  Since `.` in a Python regex does not
match a newline, the scan fails if a newline appears before the first `]`,
and it fails if no `]` occurs at all. -/
def splitBracket : Str → Option (Str × Str)
  | [] => none
  | c :: rest =>
    if c = ']' then some ([], rest)
    else if c = '\n' then none
    else
      match splitBracket rest with
      | some p => some (c :: p.1, p.2)
      | none => none

/-- Fueled scanner for the findall call over the pattern `\[(.*?)\]`: at each
`[` try to complete a match; on success emit the captured group and resume
after the `]`; on failure resume at the next character (as the regex engine
does). -/
def findallFuel : Nat → Str → List Str
  | _, [] => []
  | 0, _ => []
  | Nat.succ f, c :: rest =>
    if c = '[' then
      match splitBracket rest with
      | some p => p.1 :: findallFuel f p.2
      | none => findallFuel f rest
    else findallFuel f rest

/-- Python re.findall over the pattern `\[(.*?)\]`: capture groups of all
non-overlapping matches, left to right. -/
def findall (s : Str) : List Str := findallFuel s.length s

/-- Helper for first-occurrence deduplication: skip elements already seen. -/
def dedupAux {α : Type} [DecidableEq α] (seen : List α) : List α → List α
  | [] => []
  | x :: rest =>
    if x ∈ seen then dedupAux seen rest else x :: dedupAux (x :: seen) rest

/-- `list(set(xs))`.  CPython iterates a set of strings in an unspecified
(hash-dependent) order; the embedding fixes first-occurrence order.  Every
claim proved below is insensitive to which enumeration order is fixed. -/
def dedupF {α : Type} [DecidableEq α] (l : List α) : List α := dedupAux [] l

/-- `find_placeholders` (line 148): unique placeholder names appearing as
bracketed tokens in the template. -/
def find_placeholders (t : Str) : List Str := dedupF (findall t)

/-- Fueled engine for Python `str.replace`: replace non-overlapping
occurrences of `pat` left to right by `rep`.  The fuel is at least the
length of the remaining string, which is proved sufficient below.  (Python
gives `pat = ""` insertion semantics; every pattern used by the program is
a bracketed token, hence non-empty, and the guard keeps the fueled
recursion honest there.) -/
def replFuel (pat rep : Str) : Nat → Str → Str
  | _, [] => []
  | 0, s => s
  | Nat.succ f, c :: rest =>
    if headMatch pat (c :: rest) ∧ pat ≠ [] then
      rep ++ replFuel pat rep f ((c :: rest).drop pat.length)
    else
      c :: replFuel pat rep f rest

/-- Python `s.replace(pat, rep)` for a non-empty pattern. -/
def pyReplace (s pat rep : Str) : Str := replFuel pat rep s.length s

/-- `itertools.product(*lists)` as a list of tuples (lists), in product
order: the first coordinate varies slowest, the last fastest. -/
def prodLists {α : Type} : List (List α) → List (List α)
  | [] => [[]]
  | l :: ls => l.flatMap (fun x => (prodLists ls).map (fun c => x :: c))

/-- The candidate dictionary `placeholder_map` / `fetched_examples_cache`:
a `defaultdict(list)` mapping placeholder names to candidate value lists,
modelled as an insertion-ordered association list. -/
abbrev Dict := List (Str × List Str)

/-- First entry of the dictionary with the given key. -/
def findEntry (d : Dict) (k : Str) : Option (Str × List Str) :=
  d.find? (fun p => decide (p.1 = k))

/-- Python `k in d`. -/
def memD (d : Dict) (k : Str) : Bool := (findEntry d k).isSome

/-- Python `d.get(k, [])` (pure read, never inserts). -/
def lookupD (d : Dict) (k : Str) : List Str :=
  ((findEntry d k).map Prod.snd).getD []

/-- Python `d[k]` on a `defaultdict(list)`: returns the stored value when
the key is present; otherwise inserts `k ↦ []` and returns `[]`.  The
returned dictionary makes the (potential) mutation explicit. -/
def dictGet (d : Dict) (k : Str) : List Str × Dict :=
  match findEntry d k with
  | some p => (p.2, d)
  | none => ([], d ++ [(k, [])])

/-- Python `d[k] = v`: overwrite in place when present, append otherwise. -/
def dictSet (d : Dict) (k : Str) (v : List Str) : Dict :=
  if memD d k then d.map (fun p => if p.1 = k then (k, v) else p)
  else d ++ [(k, v)]

/-- Result of the candidate-collection loop of `generate_permutations`
(lines 161-173): the example lists when every placeholder resolved
(`valid_template`), the warnings emitted (each records the offending
placeholder and the template named in the message), and the dictionary
after the loop. -/
structure CollectOut where
  lists : Option (List (List Str))
  warnings : List (Str × Str)
  dict : Dict
  deriving DecidableEq

/-- The collection loop: for each placeholder, `if ph in placeholder_map
and placeholder_map[ph]` append the list, else warn and break.  The
dictionary access `placeholder_map[ph]` happens only under the membership
guard, exactly as in the source. -/
def collect (t : Str) : Dict → List Str → CollectOut
  | d, [] => ⟨some [], [], d⟩
  | d, ph :: rest =>
    if memD d ph then
      let g := dictGet d ph
      if g.1 = [] then ⟨none, [(ph, t)], g.2⟩
      else
        let r := collect t g.2 rest
        ⟨r.lists.map (fun ls => g.1 :: ls), r.warnings, r.dict⟩
    else ⟨none, [(ph, t)], d⟩

/-- One substitution pass (lines 184-191): starting from the template,
`temp_question.replace('[' + name + ']', value)` for each binding of
`combo_map = dict(zip(placeholders_in_template, combo))`, in placeholder
order (the placeholder list is duplicate-free, so `dict(zip(..))` keeps
exactly these pairs in this order). -/
def substCombo (t : Str) (bs : List (Str × Str)) : Str :=
  bs.foldl (fun acc p => pyReplace acc ('[' :: p.1 ++ [']']) p.2) t

/-- Result of `generate_permutations`: the generated questions, the
warnings emitted, and the dictionary after the call. -/
structure GenOut where
  questions : List Str
  warnings : List (Str × Str)
  dict : Dict
  deriving DecidableEq

/-- `generate_permutations` (lines 154-201).  A template without
placeholders is returned unchanged; a template with an unresolved
placeholder yields no questions and one warning; otherwise the Cartesian
product of the candidate lists is enumerated in order, stopping as soon as
`count >= limit`, and each combination is substituted into the template. -/
def generate_permutations (t : Str) (d : Dict) (limit : Int) : GenOut :=
  let phs := find_placeholders t
  if phs = [] then ⟨[t], [], d⟩
  else
    let c := collect t d phs
    match c.lists with
    | none => ⟨[], c.warnings, c.dict⟩
    | some ls =>
      ⟨((prodLists ls).take limit.toNat).map
          (fun combo => substCombo t (phs.zip combo)),
        c.warnings, c.dict⟩

/-- Key `"Outcome"`. -/
def outcomeKey : Str := ("Outcome").toList

/-- Key `"Measurement"`. -/
def measurementKey : Str := ("Measurement").toList

/-- The alias key `"Outcome/Measurement"`. -/
def aliasKey : Str := ("Outcome/Measurement").toList

/-- The per-placeholder cleaning step of the first `__main__` pass
(lines 241-247): the alias name is replaced by its two constituent
categories, every other name is kept. -/
def cleanedPh (ph : Str) : List Str :=
  if ph = aliasKey then [outcomeKey, measurementKey] else [ph]

/-- First `__main__` pass (lines 236-248): the set of placeholder names
needed across all templates, after alias cleaning.  Both the per-template
`cleaned_placeholders` set and the accumulated `all_needed_placeholders`
set are modelled with first-occurrence deduplication. -/
def neededPlaceholders (templates : List Str) : List Str :=
  dedupF ((templates.map (fun t => dedupF ((find_placeholders t).flatMap cleanedPh))).flatten)

/-- Second `__main__` pass (lines 250-254): fetch examples for each needed
placeholder type unless already cached.  `provider` abstracts
`fetch_dynamic_examples` (a BigQuery call); `log` records each provider
invocation in order. -/
def fetchPass (provider : Str → List Str) : Dict → List Str → List Str → Dict × List Str
  | cache, log, [] => (cache, log)
  | cache, log, ph :: rest =>
    if memD cache ph then fetchPass provider cache log rest
    else fetchPass provider (cache ++ [(ph, provider ph)]) (log ++ [ph]) rest

/-- Cache and provider-invocation log after the fetch pass, starting from
the empty `defaultdict(list)`. -/
def fetchedCache (provider : Str → List Str) (templates : List Str) : Dict × List Str :=
  fetchPass provider [] [] (neededPlaceholders templates)

/-- Alias-combination step (lines 256-260): when `"Outcome"` or
`"Measurement"` is cached, store under the alias the deduplicated
concatenation of their cached lists (Python `list(set(a + b))`, embedded
in first-occurrence order), truncated to `fetchLimit`. -/
def aliasStep (cache : Dict) (fetchLimit : Nat) : Dict :=
  if memD cache outcomeKey || memD cache measurementKey then
    dictSet cache aliasKey
      ((dedupF (lookupD cache outcomeKey ++ lookupD cache measurementKey)).take fetchLimit)
  else cache

/-- The cache visible to the generation pass: fetched examples plus the
alias entry. -/
def mainCache (provider : Str → List Str) (templates : List Str) (fetchLimit : Nat) : Dict :=
  aliasStep (fetchedCache provider templates).1 fetchLimit

/-- Third `__main__` pass (lines 265-274): generate permutations for each
template in order, accumulating all questions and all warnings.  The
dictionary produced by each call is passed on to the next, making any
mutation (there is none) observable. -/
def genPass (limit : Int) : Dict → List Str → List Str × List (Str × Str)
  | _, [] => ([], [])
  | d, t :: ts =>
    let g := generate_permutations t d limit
    let r := genPass limit g.dict ts
    (g.questions ++ r.1, g.warnings ++ r.2)

/-! ### Fuel adequacy and unfolding equations -/

theorem splitBracket_length {s : Str} {p : Str × Str} (h : splitBracket s = some p) :
    p.1.length + p.2.length + 1 = s.length := by
  induction s generalizing p with
  | nil => simp [splitBracket] at h
  | cons c rest ih =>
    rw [splitBracket] at h
    by_cases h1 : c = ']'
    · simp only [if_pos h1] at h
      injection h with h
      subst h
      simp
    · by_cases h2 : c = '\n'
      · simp only [if_neg h1, if_pos h2] at h
        exact absurd h (by simp)
      · simp only [if_neg h1, if_neg h2] at h
        cases hq : splitBracket rest with
        | none => rw [hq] at h; exact absurd h (by simp)
        | some q =>
          rw [hq] at h
          injection h with h
          subst h
          have := ih hq
          simp only [List.length_cons]
          omega

theorem findallFuel_congr : ∀ (f g : Nat) (s : Str), s.length ≤ f → s.length ≤ g →
    findallFuel f s = findallFuel g s := by
  intro f
  induction f with
  | zero =>
    intro g s hf _
    have : s = [] := List.length_eq_zero.mp (Nat.le_zero.mp hf)
    subst this
    cases g <;> rfl
  | succ f ih =>
    intro g s hf hg
    cases s with
    | nil => cases g <;> rfl
    | cons c rest =>
      cases g with
      | zero => simp at hg
      | succ g =>
        simp only [findallFuel]
        by_cases hc : c = '['
        · simp only [if_pos hc]
          cases hq : splitBracket rest with
          | none =>
            exact ih g rest (by simpa using hf) (by simpa using hg)
          | some p =>
            have hlen := splitBracket_length hq
            have h1 : p.2.length ≤ f := by simp at hf; omega
            have h2 : p.2.length ≤ g := by simp at hg; omega
            exact congrArg (fun l => p.1 :: l) (ih g p.2 h1 h2)
        · simp only [if_neg hc]
          exact ih g rest (by simpa using hf) (by simpa using hg)

theorem findall_nil : findall [] = [] := rfl

theorem findall_cons_not_br {c : Char} (s : Str) (h : c ≠ '[') :
    findall (c :: s) = findall s := by
  show findallFuel (c :: s).length (c :: s) = findall s
  simp only [List.length_cons, findallFuel, if_neg h]
  exact findallFuel_congr s.length s.length s (by simp) le_rfl

theorem findall_cons_br_some {s : Str} {p : Str × Str} (h : splitBracket s = some p) :
    findall ('[' :: s) = p.1 :: findall p.2 := by
  have hlen := splitBracket_length h
  have h1 : findall ('[' :: s) = p.1 :: findallFuel s.length p.2 := by
    show findallFuel (s.length + 1) ('[' :: s) = _
    simp [findallFuel, h]
  rw [h1, findallFuel_congr s.length p.2.length p.2 (by omega) le_rfl]
  rfl

theorem findall_cons_br_none {s : Str} (h : splitBracket s = none) :
    findall ('[' :: s) = findall s := by
  have h1 : findall ('[' :: s) = findallFuel s.length s := by
    show findallFuel (s.length + 1) ('[' :: s) = _
    simp [findallFuel, h]
  exact h1

theorem replFuel_congr (pat rep : Str) : ∀ (f g : Nat) (s : Str),
    s.length ≤ f → s.length ≤ g → replFuel pat rep f s = replFuel pat rep g s := by
  intro f
  induction f with
  | zero =>
    intro g s hf _
    have : s = [] := List.length_eq_zero.mp (Nat.le_zero.mp hf)
    subst this
    cases g <;> rfl
  | succ f ih =>
    intro g s hf hg
    cases s with
    | nil => cases g <;> rfl
    | cons c rest =>
      cases g with
      | zero => simp at hg
      | succ g =>
        simp only [replFuel]
        by_cases hm : headMatch pat (c :: rest) = true ∧ pat ≠ []
        · simp only [if_pos hm]
          have hp : 1 ≤ pat.length := List.length_pos.mpr hm.2
          have hd : ((c :: rest).drop pat.length).length ≤ f := by
            simp at hf ⊢
            omega
          have hd2 : ((c :: rest).drop pat.length).length ≤ g := by
            simp at hg ⊢
            omega
          rw [ih g _ hd hd2]
        · simp only [if_neg hm]
          rw [ih g rest (by simpa using hf) (by simpa using hg)]

theorem pyReplace_nil (pat rep : Str) : pyReplace [] pat rep = [] := rfl

theorem pyReplace_cons_match {pat : Str} {c : Char} {s : Str} (rep : Str)
    (h : headMatch pat (c :: s) = true) (hp : pat ≠ []) :
    pyReplace (c :: s) pat rep = rep ++ pyReplace ((c :: s).drop pat.length) pat rep := by
  show replFuel pat rep (c :: s).length (c :: s) = _
  simp only [List.length_cons, replFuel, if_pos (And.intro h hp)]
  have hp1 : 1 ≤ pat.length := List.length_pos.mpr hp
  rw [replFuel_congr pat rep s.length ((c :: s).drop pat.length).length _ (by simp; omega) le_rfl]
  rfl

theorem pyReplace_cons_nomatch {pat : Str} {c : Char} {s : Str} (rep : Str)
    (h : headMatch pat (c :: s) = false) :
    pyReplace (c :: s) pat rep = c :: pyReplace s pat rep := by
  show replFuel pat rep (c :: s).length (c :: s) = _
  have : ¬ (headMatch pat (c :: s) = true ∧ pat ≠ []) := by simp [h]
  simp only [List.length_cons, replFuel, if_neg this]
  rfl

/-! ### Deduplication lemmas -/

theorem mem_dedupAux {α : Type} [DecidableEq α] (x : α) :
    ∀ (l seen : List α), x ∈ dedupAux seen l ↔ x ∈ l ∧ x ∉ seen := by
  intro l
  induction l with
  | nil => intro seen; simp [dedupAux]
  | cons y rest ih =>
    intro seen
    by_cases hy : y ∈ seen
    · simp only [dedupAux, if_pos hy, ih]
      constructor
      · rintro ⟨h1, h2⟩
        exact ⟨List.mem_cons_of_mem _ h1, h2⟩
      · rintro ⟨h1, h2⟩
        rcases List.mem_cons.mp h1 with h | h
        · exact absurd (h ▸ hy) h2
        · exact ⟨h, h2⟩
    · simp only [dedupAux, if_neg hy, List.mem_cons, ih]
      by_cases hxy : x = y
      · subst hxy
        simp [hy]
      · simp [hxy]

theorem mem_dedupF {α : Type} [DecidableEq α] (x : α) (l : List α) :
    x ∈ dedupF l ↔ x ∈ l := by
  simp [dedupF, mem_dedupAux]

theorem dedupAux_nodup {α : Type} [DecidableEq α] :
    ∀ (l seen : List α), (dedupAux seen l).Nodup := by
  intro l
  induction l with
  | nil => intro seen; simp [dedupAux]
  | cons y rest ih =>
    intro seen
    by_cases hy : y ∈ seen
    · simpa [dedupAux, if_pos hy] using ih seen
    · simp only [dedupAux, if_neg hy, List.nodup_cons]
      refine ⟨?_, ih _⟩
      rw [mem_dedupAux]
      simp

theorem dedupF_nodup {α : Type} [DecidableEq α] (l : List α) : (dedupF l).Nodup :=
  dedupAux_nodup l []

theorem dedupF_eq_nil {α : Type} [DecidableEq α] {l : List α} :
    dedupF l = [] ↔ l = [] := by
  cases l with
  | nil => simp [dedupF, dedupAux]
  | cons x rest => simp [dedupF, dedupAux]

/-! ### Cartesian-product lemmas -/

theorem length_prodLists {α : Type} : ∀ ls : List (List α),
    (prodLists ls).length = (ls.map List.length).prod := by
  intro ls
  induction ls with
  | nil => rfl
  | cons l ls ih =>
    show (l.flatMap fun x => (prodLists ls).map (fun c => x :: c)).length = _
    rw [List.flatMap, List.length_flatten, List.map_map]
    have h1 : List.map (List.length ∘ fun x => (prodLists ls).map (fun c => x :: c)) l
        = List.map (fun _ => (prodLists ls).length) l := by
      apply List.map_congr_left
      intro a _
      simp
    rw [h1, List.map_const', List.sum_replicate, smul_eq_mul, ih]
    simp [List.prod_cons]

theorem mem_prodLists {α : Type} : ∀ (ls : List (List α)) (c : List α),
    c ∈ prodLists ls ↔ List.Forall₂ (fun x l => x ∈ l) c ls := by
  intro ls
  induction ls with
  | nil =>
    intro c
    simp only [prodLists, List.mem_singleton, List.forall₂_nil_right_iff]
  | cons l ls ih =>
    intro c
    simp only [prodLists, List.mem_flatMap, List.mem_map, List.forall₂_cons_right_iff]
    constructor
    · rintro ⟨x, hx, c', hc', rfl⟩
      exact ⟨x, c', hx, (ih c').mp hc', rfl⟩
    · rintro ⟨x, c', hx, hc', rfl⟩
      exact ⟨x, hx, c', (ih c').mpr hc', rfl⟩

theorem prodLists_ne_nil {α : Type} (ls : List (List α)) (h : ∀ l ∈ ls, l ≠ []) :
    prodLists ls ≠ [] := by
  have hlen : (prodLists ls).length ≠ 0 := by
    rw [length_prodLists]
    intro hc
    rcases List.prod_eq_zero_iff.mp hc with hmem
    rcases List.mem_map.mp hmem with ⟨l, hl, hl0⟩
    exact h l hl (List.length_eq_zero.mp hl0)
  intro hc
  exact hlen (by rw [hc]; rfl)

theorem headI_prodLists {α : Type} [Inhabited α] : ∀ ls : List (List α), (∀ l ∈ ls, l ≠ []) →
    (prodLists ls).headI = ls.map List.headI := by
  intro ls
  induction ls with
  | nil => intro _; rfl
  | cons l ls ih =>
    intro h
    have hl : l ≠ [] := h l (by simp)
    have hrest : ∀ l' ∈ ls, l' ≠ [] := fun l' hl' => h l' (by simp [hl'])
    have hP : prodLists ls ≠ [] := prodLists_ne_nil ls hrest
    have hih := ih hrest
    cases l with
    | nil => exact absurd rfl hl
    | cons x l' =>
      cases hPc : prodLists ls with
      | nil => exact absurd hPc hP
      | cons p P' =>
        rw [hPc] at hih
        simp only [List.headI] at hih
        show ((x :: l').flatMap fun y => (prodLists ls).map (fun c => y :: c)).headI = _
        rw [hPc]
        simp only [List.flatMap_cons, List.map_cons, List.cons_append, List.headI, List.map_cons]
        rw [hih]

theorem take_one_of_ne_nil {α : Type} [Inhabited α] {l : List α} (h : l ≠ []) : l.take 1 = [l.headI] := by
  cases l with
  | nil => exact absurd rfl h
  | cons x rest => rfl

theorem getElem?_prodLists {α : Type} [Inhabited α] (ls : List (List α)) :
    ∀ (xs : List α) (i j : Nat), i < xs.length → j < (prodLists ls).length →
    (prodLists (xs :: ls))[i * (prodLists ls).length + j]? = ((prodLists ls)[j]?).map (fun c => xs[i]! :: c) := by
  intro xs
  induction xs with
  | nil => intro i j hi _; simp at hi
  | cons x xs ih =>
    intro i j hi hj
    cases i with
    | zero =>
      have hjlen : j < ((prodLists ls).map (fun c => x :: c)).length := by simpa using hj
      show ((x :: xs).flatMap fun y => (prodLists ls).map (fun c => y :: c))[0 * (prodLists ls).length + j]? = _
      rw [List.flatMap_cons, Nat.zero_mul, Nat.zero_add, List.getElem?_append_left hjlen,
        List.getElem?_map]
      simp [List.getElem!_cons_zero]
    | succ i =>
      have hlen : ((prodLists ls).map (fun c => x :: c)).length = (prodLists ls).length := by simp
      have harith : (i + 1) * (prodLists ls).length + j =
          ((prodLists ls).map (fun c => x :: c)).length + (i * (prodLists ls).length + j) := by
        rw [hlen]; ring
      show ((x :: xs).flatMap fun y => (prodLists ls).map (fun c => y :: c))[(i + 1) * (prodLists ls).length + j]? = _
      rw [List.flatMap_cons, harith, List.getElem?_append_right (by omega)]
      have h2 : ((prodLists ls).map (fun c => x :: c)).length + (i * (prodLists ls).length + j) -
          ((prodLists ls).map (fun c => x :: c)).length = i * (prodLists ls).length + j := by omega
      rw [h2]
      have hx : (x :: xs)[i + 1]! = xs[i]! := by
        simp [List.getElem!_cons_succ]
      rw [hx]
      exact ih i j (by simpa using hi) hj

/-! ### Dictionary and collection-loop lemmas -/

theorem findEntry_key {d : Dict} {k : Str} {p : Str × List Str} (h : findEntry d k = some p) :
    p.1 = k := by
  have := List.find?_some h
  simpa using this

theorem memD_iff_findEntry {d : Dict} {k : Str} :
    memD d k = true ↔ ∃ p, findEntry d k = some p := by
  simp [memD, Option.isSome_iff_exists]

theorem dictGet_of_mem {d : Dict} {k : Str} (h : memD d k = true) :
    dictGet d k = (lookupD d k, d) := by
  rcases memD_iff_findEntry.mp h with ⟨p, hp⟩
  simp [dictGet, lookupD, hp]

theorem lookupD_mem_values {d : Dict} {k : Str} {v : Str} (h : v ∈ lookupD d k) :
    ∃ p ∈ d, p.1 = k ∧ v ∈ p.2 := by
  unfold lookupD at h
  cases hf : findEntry d k with
  | none => rw [hf] at h; simp at h
  | some p =>
    rw [hf] at h
    simp at h
    exact ⟨p, List.mem_of_find?_eq_some hf, findEntry_key hf, h⟩

theorem collect_dict (t : Str) : ∀ (phs : List Str) (d : Dict), (collect t d phs).dict = d := by
  intro phs
  induction phs with
  | nil => intro d; rfl
  | cons ph rest ih =>
    intro d
    by_cases hm : memD d ph = true
    · have hg := dictGet_of_mem hm
      by_cases he : lookupD d ph = []
      · simp [collect, hm, hg, he]
      · simp [collect, hm, hg, he, ih]
    · simp [collect, hm]

theorem collect_success (t : Str) : ∀ (phs : List Str) (d : Dict),
    (∀ ph ∈ phs, memD d ph = true ∧ lookupD d ph ≠ []) →
    collect t d phs = ⟨some (phs.map (lookupD d)), [], d⟩ := by
  intro phs
  induction phs with
  | nil => intro d _; rfl
  | cons ph rest ih =>
    intro d h
    obtain ⟨hm, he⟩ := h ph (by simp)
    have hg := dictGet_of_mem hm
    have hrest : ∀ ph' ∈ rest, memD d ph' = true ∧ lookupD d ph' ≠ [] :=
      fun ph' hp' => h ph' (by simp [hp'])
    simp [collect, hm, hg, he, ih d hrest]

theorem collect_fail (t : Str) : ∀ (phs : List Str) (d : Dict),
    (∃ ph ∈ phs, memD d ph = false ∨ lookupD d ph = []) →
    ∃ ph ∈ phs, (memD d ph = false ∨ lookupD d ph = []) ∧
      collect t d phs = ⟨none, [(ph, t)], d⟩ := by
  intro phs
  induction phs with
  | nil => rintro d ⟨ph, hph, _⟩; simp at hph
  | cons ph rest ih =>
    intro d h
    by_cases hm : memD d ph = true
    · by_cases he : lookupD d ph = []
      · exact ⟨ph, by simp, Or.inr he, by simp [collect, hm, dictGet_of_mem hm, he]⟩
      · have hbad : ∃ ph' ∈ rest, memD d ph' = false ∨ lookupD d ph' = [] := by
          rcases h with ⟨ph', hmem, hb⟩
          rcases List.mem_cons.mp hmem with rfl | hmem'
          · rcases hb with hb | hb
            · exact absurd hm (by simp [hb])
            · exact absurd hb he
          · exact ⟨ph', hmem', hb⟩
        rcases ih d hbad with ⟨ph', hmem', hb', hcol⟩
        refine ⟨ph', by simp [hmem'], hb', ?_⟩
        simp [collect, hm, dictGet_of_mem hm, he, hcol]
    · have hm' : memD d ph = false := by simpa using hm
      exact ⟨ph, by simp, Or.inl hm', by simp [collect, hm]⟩

/-! ### Unfolding lemmas for `generate_permutations` -/

theorem generate_no_ph {t : Str} (d : Dict) (lim : Int) (h : find_placeholders t = []) :
    generate_permutations t d lim = ⟨[t], [], d⟩ := by
  simp [generate_permutations, h]

theorem generate_success {t : Str} {d : Dict} (lim : Int)
    (hne : find_placeholders t ≠ [])
    (h : ∀ ph ∈ find_placeholders t, memD d ph = true ∧ lookupD d ph ≠ []) :
    generate_permutations t d lim =
      ⟨((prodLists ((find_placeholders t).map (lookupD d))).take lim.toNat).map
          (fun combo => substCombo t ((find_placeholders t).zip combo)), [], d⟩ := by
  rw [generate_permutations]
  simp only [if_neg hne, collect_success t (find_placeholders t) d h]

theorem generate_fail {t : Str} {d : Dict} (lim : Int)
    (h : ∃ ph ∈ find_placeholders t, memD d ph = false ∨ lookupD d ph = []) :
    ∃ ph ∈ find_placeholders t, (memD d ph = false ∨ lookupD d ph = []) ∧
      generate_permutations t d lim = ⟨[], [(ph, t)], d⟩ := by
  have hne : find_placeholders t ≠ [] := by
    rcases h with ⟨ph, hmem, _⟩
    intro hc
    rw [hc] at hmem
    simp at hmem
  rcases collect_fail t (find_placeholders t) d h with ⟨ph, hmem, hb, hcol⟩
  refine ⟨ph, hmem, hb, ?_⟩
  rw [generate_permutations]
  simp only [if_neg hne, hcol]

theorem generate_dict_eq (t : Str) (d : Dict) (lim : Int) :
    (generate_permutations t d lim).dict = d := by
  rw [generate_permutations]
  by_cases h : find_placeholders t = []
  · simp [h]
  · simp only [if_neg h]
    have hd := collect_dict t (find_placeholders t) d
    cases hc : (collect t d (find_placeholders t)).lists with
    | none => simpa [hc] using hd
    | some ls => simpa [hc] using hd

/-! ### The generation pass distributes over templates with a fixed cache -/

theorem genPass_questions (lim : Int) : ∀ (ts : List Str) (d : Dict),
    (genPass lim d ts).1 = (ts.map (fun u => (generate_permutations u d lim).questions)).flatten := by
  intro ts
  induction ts with
  | nil => intro d; rfl
  | cons t ts ih =>
    intro d
    simp only [genPass, List.map_cons, List.flatten_cons]
    rw [generate_dict_eq t d lim, ih d]

theorem genPass_warnings (lim : Int) : ∀ (ts : List Str) (d : Dict),
    (genPass lim d ts).2 = (ts.map (fun u => (generate_permutations u d lim).warnings)).flatten := by
  intro ts
  induction ts with
  | nil => intro d; rfl
  | cons t ts ih =>
    intro d
    simp only [genPass, List.map_cons, List.flatten_cons]
    rw [generate_dict_eq t d lim, ih d]

/-! ### Fetch-pass and dictionary-update lemmas -/

theorem findEntry_cons (p : Str × List Str) (d : Dict) (k : Str) :
    findEntry (p :: d) k = if p.1 = k then some p else findEntry d k := by
  by_cases h : p.1 = k <;> simp [findEntry, List.find?_cons, h]

theorem findEntry_append_none {d₁ : Dict} (d₂ : Dict) (k : Str)
    (h : findEntry d₁ k = none) : findEntry (d₁ ++ d₂) k = findEntry d₂ k := by
  induction d₁ with
  | nil => rfl
  | cons p d₁ ih =>
    rw [findEntry_cons] at h
    by_cases hp : p.1 = k
    · rw [if_pos hp] at h; exact absurd h (by simp)
    · rw [if_neg hp] at h
      rw [List.cons_append, findEntry_cons, if_neg hp]
      exact ih h

theorem memD_false_iff {d : Dict} {k : Str} : memD d k = false ↔ findEntry d k = none := by
  cases h : findEntry d k <;> simp [memD, h]

theorem memD_append_single_false {cache : Dict} {k ph : Str} (v : List Str)
    (h1 : memD cache k = false) (h2 : k ≠ ph) :
    memD (cache ++ [(ph, v)]) k = false := by
  rw [memD_false_iff] at h1 ⊢
  rw [findEntry_append_none _ _ h1, findEntry_cons, if_neg (fun hc => h2 hc.symm)]
  rfl

theorem fetchPass_spec (provider : Str → List Str) : ∀ (ns : List Str) (cache : Dict) (log : List Str),
    ns.Nodup → (∀ k ∈ ns, memD cache k = false) →
    fetchPass provider cache log ns = (cache ++ ns.map (fun k => (k, provider k)), log ++ ns) := by
  intro ns
  induction ns with
  | nil => intro cache log _ _; simp [fetchPass]
  | cons ph rest ih =>
    intro cache log hnd hfresh
    have hm : memD cache ph = false := hfresh ph (by simp)
    rw [fetchPass, if_neg (by simp [hm])]
    have hnd' : rest.Nodup := (List.nodup_cons.mp hnd).2
    have hph : ph ∉ rest := (List.nodup_cons.mp hnd).1
    have hfresh' : ∀ k ∈ rest, memD (cache ++ [(ph, provider ph)]) k = false := by
      intro k hk
      exact memD_append_single_false _ (hfresh k (by simp [hk])) (fun hc => hph (hc ▸ hk))
    rw [ih _ _ hnd' hfresh']
    simp

theorem fetchedCache_eq (provider : Str → List Str) (templates : List Str) :
    fetchedCache provider templates =
      ((neededPlaceholders templates).map (fun k => (k, provider k)), neededPlaceholders templates) := by
  have hnd : (neededPlaceholders templates).Nodup := by
    rw [neededPlaceholders]; exact dedupF_nodup _
  rw [fetchedCache, fetchPass_spec provider _ [] [] hnd (by intro k _; rfl)]
  simp

theorem lookupD_dictSet_self (d : Dict) (k : Str) (v : List Str) :
    lookupD (dictSet d k v) k = v := by
  by_cases hm : memD d k = true
  · rw [dictSet, if_pos hm]
    induction d with
    | nil => simp [memD, findEntry] at hm
    | cons p d ih =>
      by_cases hp : p.1 = k
      · simp only [List.map_cons, if_pos hp]
        simp [lookupD, findEntry_cons]
      · simp only [List.map_cons, if_neg hp]
        have hm' : memD d k = true := by
          rcases memD_iff_findEntry.mp hm with ⟨q, hq⟩
          rw [findEntry_cons, if_neg hp] at hq
          exact memD_iff_findEntry.mpr ⟨q, hq⟩
        have := ih hm'
        simpa [lookupD, findEntry_cons, hp] using this
  · have hm' : memD d k = false := by simpa using hm
    rw [dictSet, if_neg (by simp [hm'])]
    rw [lookupD, findEntry_append_none _ _ (memD_false_iff.mp hm'), findEntry_cons]
    simp

/-! ### Well-formed templates: alternating literal runs and bracketed tokens

A template of practical shape is a sequence of literal chunks (free of `[`)
and tokens `[name]` whose names contain no bracket and no newline.  On such
templates the substitution loop of `generate_permutations` can be described
exactly, which is what the full-substitution and consistency claims need. -/

inductive Shape where
  | lit : Str → Shape
  | tok : Str → Shape
  deriving DecidableEq

/-- The template string denoted by a list of shapes. -/
def render : List Shape → Str
  | [] => []
  | Shape.lit l :: rest => l ++ render rest
  | Shape.tok n :: rest => '[' :: (n ++ ']' :: render rest)

/-- Well-formedness of one shape: literal chunks contain no `[`; token names
contain no bracket and no newline. -/
def shapeOk : Shape → Prop
  | Shape.lit l => '[' ∉ l
  | Shape.tok n => '[' ∉ n ∧ ']' ∉ n ∧ '\n' ∉ n

instance shapeOk_decidable : DecidablePred shapeOk := by
  intro s
  cases s with
  | lit l => exact (inferInstance : Decidable ('[' ∉ l))
  | tok n => exact (inferInstance : Decidable ('[' ∉ n ∧ ']' ∉ n ∧ '\n' ∉ n))

/-- Well-formedness of a whole template. -/
def wfShapes (ss : List Shape) : Prop := ∀ s ∈ ss, shapeOk s

instance wfShapes_decidable : DecidablePred wfShapes := fun ss =>
  decidable_of_iff (∀ s ∈ ss, shapeOk s) Iff.rfl

/-- Token names of a template, in order of occurrence (with repetitions). -/
def tokNames : List Shape → List Str
  | [] => []
  | Shape.lit _ :: rest => tokNames rest
  | Shape.tok n :: rest => n :: tokNames rest

/-- Effect of one `str.replace('[' + n + ']', v)` call on a shape. -/
def replTok (n v : Str) : Shape → Shape
  | Shape.lit l => Shape.lit l
  | Shape.tok m => if m = n then Shape.lit v else Shape.tok m

/-- Effect of the whole substitution loop on a shape: a token is replaced by
the value of the first binding carrying its name, if any. -/
def bindShape (bs : List (Str × Str)) : Shape → Shape
  | Shape.lit l => Shape.lit l
  | Shape.tok m =>
    match bs.find? (fun p => decide (p.1 = m)) with
    | some p => Shape.lit p.2
    | none => Shape.tok m

/-- The substring relation on modelled strings. -/
def hasSubstring (pat s : Str) : Prop := ∃ u w, s = u ++ pat ++ w

theorem mem_of_hasSubstring {pat s : Str} {c : Char} (h : hasSubstring pat s) (hc : c ∈ pat) :
    c ∈ s := by
  rcases h with ⟨u, w, rfl⟩
  simp [hc]

theorem splitBracket_of_name {n : Str} (s : Str) (h1 : ']' ∉ n) (h2 : '\n' ∉ n) :
    splitBracket (n ++ ']' :: s) = some (n, s) := by
  induction n with
  | nil => simp [splitBracket]
  | cons c n ih =>
    have hc1 : c ≠ ']' := fun hc => h1 (by simp [hc])
    have hc2 : c ≠ '\n' := fun hc => h2 (by simp [hc])
    have ih' := ih (fun hm => h1 (by simp [hm])) (fun hm => h2 (by simp [hm]))
    simp [splitBracket, hc1, hc2, ih']

theorem findall_append_lit {l : Str} (s : Str) (h : '[' ∉ l) :
    findall (l ++ s) = findall s := by
  induction l with
  | nil => rfl
  | cons c l ih =>
    have hc : c ≠ '[' := fun hc => h (by simp [hc])
    rw [List.cons_append, findall_cons_not_br _ hc]
    exact ih (fun hm => h (by simp [hm]))

theorem findall_render : ∀ ss : List Shape, wfShapes ss →
    findall (render ss) = tokNames ss := by
  intro ss
  induction ss with
  | nil => intro _; rfl
  | cons s rest ih =>
    intro h
    have hok := h s (by simp)
    have hrest : wfShapes rest := fun x hx => h x (by simp [hx])
    cases s with
    | lit l =>
      show findall (l ++ render rest) = tokNames rest
      rw [findall_append_lit _ hok, ih hrest]
    | tok n =>
      obtain ⟨h1, h2, h3⟩ := hok
      show findall ('[' :: (n ++ ']' :: render rest)) = n :: tokNames rest
      rw [findall_cons_br_some (splitBracket_of_name _ h2 h3), ih hrest]

theorem headMatch_self_append : ∀ p s : Str, headMatch p (p ++ s) = true := by
  intro p
  induction p with
  | nil => intro s; rfl
  | cons x p ih => intro s; simp [headMatch, ih]

theorem headMatch_name_ne : ∀ (n m s : Str), n ≠ m → ']' ∉ n → ']' ∉ m →
    headMatch (n ++ [']']) (m ++ ']' :: s) = false := by
  intro n
  induction n with
  | nil =>
    intro m s hne h1 h2
    cases m with
    | nil => exact absurd rfl hne
    | cons b m' =>
      have hb : b ≠ ']' := fun hc => h2 (by simp [hc])
      have hb' : ¬ ((']' : Char) = b) := fun hc => hb hc.symm
      simp [headMatch, hb']
  | cons a n' ih =>
    intro m s hne h1 h2
    cases m with
    | nil =>
      have ha : a ≠ ']' := fun hc => h1 (by simp [hc])
      simp [headMatch, ha]
    | cons b m' =>
      by_cases hab : a = b
      · subst hab
        have hne' : n' ≠ m' := fun hc => hne (by rw [hc])
        have h1' : ']' ∉ n' := fun hc => h1 (by simp [hc])
        have h2' : ']' ∉ m' := fun hc => h2 (by simp [hc])
        simp [headMatch, ih m' s hne' h1' h2']
      · simp [headMatch, hab]

theorem pyReplace_append_lit {l : Str} {q : Str} (s rep : Str) (h : '[' ∉ l) :
    pyReplace (l ++ s) ('[' :: q) rep = l ++ pyReplace s ('[' :: q) rep := by
  induction l with
  | nil => rfl
  | cons c l ih =>
    have hc : c ≠ '[' := fun hcc => h (by simp [hcc])
    have hc' : ¬ (('[' : Char) = c) := fun hcc => hc hcc.symm
    have hm : headMatch ('[' :: q) (c :: (l ++ s)) = false := by
      simp [headMatch, hc']
    rw [List.cons_append, pyReplace_cons_nomatch _ hm, ih (fun hm' => h (by simp [hm']))]
    rfl

theorem pyReplace_render {n v : Str} (hn1 : '[' ∉ n) (hn2 : ']' ∉ n) :
    ∀ ss : List Shape, wfShapes ss →
    pyReplace (render ss) ('[' :: (n ++ [']'])) v = render (ss.map (replTok n v)) := by
  intro ss
  induction ss with
  | nil => intro _; rfl
  | cons s rest ih =>
    intro h
    have hok := h s (by simp)
    have hrest : wfShapes rest := fun x hx => h x (by simp [hx])
    cases s with
    | lit l =>
      show pyReplace (l ++ render rest) ('[' :: (n ++ [']'])) v
          = l ++ render (rest.map (replTok n v))
      rw [pyReplace_append_lit _ _ hok, ih hrest]
    | tok m =>
      by_cases hm : m = n
      · subst hm
        simp only [List.map_cons]
        rw [show replTok m v (Shape.tok m) = Shape.lit v from by simp [replTok]]
        show pyReplace ('[' :: (m ++ ']' :: render rest)) ('[' :: (m ++ [']'])) v
            = render (Shape.lit v :: rest.map (replTok m v))
        have hsplit : '[' :: (m ++ ']' :: render rest) = ('[' :: (m ++ [']'])) ++ render rest := by
          simp
        have hmatch : headMatch ('[' :: (m ++ [']'])) ('[' :: (m ++ ']' :: render rest)) = true := by
          rw [hsplit]
          exact headMatch_self_append _ _
        rw [pyReplace_cons_match _ hmatch (by simp)]
        have hdrop : ('[' :: (m ++ ']' :: render rest)).drop ('[' :: (m ++ [']'])).length
            = render rest := by
          rw [hsplit]
          exact List.drop_left _ _
        rw [hdrop, ih hrest]
        rfl
      · obtain ⟨hm1, hm2, _⟩ := hok
        have hrepl : replTok n v (Shape.tok m) = Shape.tok m := by
          simp [replTok, hm]
        show pyReplace ('[' :: (m ++ ']' :: render rest)) ('[' :: (n ++ [']'])) v
            = render ((Shape.tok m :: rest).map (replTok n v))
        have hne : n ≠ m := fun hc => hm hc.symm
        have hnomatch : headMatch ('[' :: (n ++ [']'])) ('[' :: (m ++ ']' :: render rest)) = false := by
          have := headMatch_name_ne n m (render rest) hne hn2 hm2
          simp [headMatch, this]
        rw [pyReplace_cons_nomatch _ hnomatch, pyReplace_append_lit _ _ hm1]
        have hnom2 : headMatch ('[' :: (n ++ [']'])) (']' :: render rest) = false := by
          simp [headMatch]
        rw [pyReplace_cons_nomatch _ hnom2, ih hrest]
        simp only [List.map_cons, hrepl]
        rfl

theorem substCombo_nil (t : Str) : substCombo t [] = t := rfl

theorem substCombo_cons (t : Str) (p : Str × Str) (bs : List (Str × Str)) :
    substCombo t (p :: bs) = substCombo (pyReplace t ('[' :: (p.1 ++ [']'])) p.2) bs := rfl

theorem wfShapes_replTok {ss : List Shape} {n v : Str} (hwf : wfShapes ss) (hv : '[' ∉ v) :
    wfShapes (ss.map (replTok n v)) := by
  intro s hs
  rcases List.mem_map.mp hs with ⟨s₀, hs₀, rfl⟩
  have hok := hwf s₀ hs₀
  cases s₀ with
  | lit l => exact hok
  | tok m =>
    by_cases hm : m = n
    · simp [replTok, hm]
      exact hv
    · simp [replTok, hm]
      exact hok

theorem bindShape_nil (s : Shape) : bindShape [] s = s := by
  cases s <;> simp [bindShape]

theorem substCombo_render : ∀ (bs : List (Str × Str)) (ss : List Shape), wfShapes ss →
    (∀ p ∈ bs, '[' ∉ p.1 ∧ ']' ∉ p.1 ∧ '[' ∉ p.2) →
    substCombo (render ss) bs = render (ss.map (bindShape bs)) := by
  intro bs
  induction bs with
  | nil =>
    intro ss _ _
    rw [substCombo_nil]
    have h1 : ss.map (bindShape []) = ss := by
      have h2 : ss.map (bindShape []) = ss.map id := List.map_congr_left (fun s _ => bindShape_nil s)
      rw [h2, List.map_id]
    rw [h1]
  | cons p bs ih =>
    intro ss hwf hb
    obtain ⟨hk1, hk2, hv1⟩ := hb p (by simp)
    have hb' : ∀ q ∈ bs, '[' ∉ q.1 ∧ ']' ∉ q.1 ∧ '[' ∉ q.2 := fun q hq => hb q (by simp [hq])
    rw [substCombo_cons, pyReplace_render hk1 hk2 ss hwf,
      ih _ (wfShapes_replTok hwf hv1) hb']
    congr 1
    rw [List.map_map]
    apply List.map_congr_left
    intro s _
    cases s with
    | lit l => simp [replTok, bindShape]
    | tok m =>
      by_cases hm : m = p.1
      · simp [Function.comp, replTok, bindShape, hm, List.find?_cons]
      · have hp : ¬ (p.1 = m) := fun hc => hm hc.symm
        simp [Function.comp, replTok, bindShape, hm, List.find?_cons, hp]

theorem no_bracket_render_bindShape {ss : List Shape} {bs : List (Str × Str)}
    (hwf : wfShapes ss) (hv : ∀ p ∈ bs, '[' ∉ p.2)
    (hcov : ∀ m ∈ tokNames ss, ∃ p ∈ bs, p.1 = m) :
    '[' ∉ render (ss.map (bindShape bs)) := by
  induction ss with
  | nil => simp [render]
  | cons s rest ih =>
    have hok := hwf s (by simp)
    have hrest : wfShapes rest := fun x hx => hwf x (by simp [hx])
    have hcovrest : ∀ m ∈ tokNames rest, ∃ p ∈ bs, p.1 = m := by
      intro m hm
      apply hcov
      cases s <;> simp [tokNames, hm]
    have ihr := ih hrest hcovrest
    cases s with
    | lit l =>
      show '[' ∉ l ++ render (rest.map (bindShape bs))
      intro hmem
      rcases List.mem_append.mp hmem with hmem | hmem
      · exact hok hmem
      · exact ihr hmem
    | tok m =>
      have hcovm : ∃ p ∈ bs, p.1 = m := hcov m (by simp [tokNames])
      have hfind : ∃ q, bs.find? (fun p => decide (p.1 = m)) = some q := by
        rw [← Option.isSome_iff_exists, List.find?_isSome]
        rcases hcovm with ⟨p, hp, hp1⟩
        exact ⟨p, hp, by simp [hp1]⟩
      rcases hfind with ⟨q, hq⟩
      have hq2 : '[' ∉ q.2 := hv q (List.mem_of_find?_eq_some hq)
      show '[' ∉ render (bindShape bs (Shape.tok m) :: rest.map (bindShape bs))
      rw [show bindShape bs (Shape.tok m) = Shape.lit q.2 by simp [bindShape, hq]]
      show '[' ∉ q.2 ++ render (rest.map (bindShape bs))
      intro hmem
      rcases List.mem_append.mp hmem with hmem | hmem
      · exact hq2 hmem
      · exact ihr hmem

theorem tok_mem_of_mem_tokNames : ∀ {ss : List Shape} {m : Str}, m ∈ tokNames ss → Shape.tok m ∈ ss := by
  intro ss
  induction ss with
  | nil => intro m hm; simp [tokNames] at hm
  | cons s rest ih =>
    intro m hm
    cases s with
    | lit l => exact List.mem_cons_of_mem _ (ih hm)
    | tok n =>
      rcases List.mem_cons.mp hm with rfl | hm'
      · simp
      · exact List.mem_cons_of_mem _ (ih hm')

theorem exists_mem_zip_of_mem {α β : Type} : ∀ (ks : List α) (vs : List β) (k : α),
    k ∈ ks → ks.length = vs.length → ∃ p ∈ ks.zip vs, p.1 = k := by
  intro ks
  induction ks with
  | nil => intro vs k hk _; simp at hk
  | cons k₀ ks ih =>
    intro vs k hk hlen
    cases vs with
    | nil => simp at hlen
    | cons v₀ vs =>
      rcases List.mem_cons.mp hk with rfl | hk'
      · exact ⟨(k, v₀), by simp, rfl⟩
      · rcases ih vs k hk' (by simpa using hlen) with ⟨p, hp, hp1⟩
        exact ⟨p, by simp [hp], hp1⟩

theorem forall₂_mem_exists {α : Type} : ∀ {combo : List α} {lists : List (List α)} {v : α},
    List.Forall₂ (fun x l => x ∈ l) combo lists → v ∈ combo → ∃ l ∈ lists, v ∈ l := by
  intro combo
  induction combo with
  | nil => intro lists v _ hv; simp at hv
  | cons x combo ih =>
    intro lists v hf hv
    cases hf with
    | cons hx hf' =>
      rcases List.mem_cons.mp hv with rfl | hv'
      · exact ⟨_, by simp, hx⟩
      · rcases ih hf' hv' with ⟨l, hl, hvl⟩
        exact ⟨l, by simp [hl], hvl⟩

/-! ### Substitution on well-formed templates, through `generate_permutations` -/

theorem zip_bindings_ok (ss : List Shape) (d : Dict)
    (hwf : wfShapes ss) (hd : ∀ p ∈ d, ∀ v ∈ p.2, '[' ∉ v ∧ ']' ∉ v)
    {combo : List Str}
    (hforall : List.Forall₂ (fun x l => x ∈ l) combo
      ((find_placeholders (render ss)).map (lookupD d))) :
    ∀ p ∈ (find_placeholders (render ss)).zip combo, '[' ∉ p.1 ∧ ']' ∉ p.1 ∧ '[' ∉ p.2 ∧ ']' ∉ p.2 := by
  have hfp : find_placeholders (render ss) = dedupF (tokNames ss) := by
    rw [find_placeholders, findall_render ss hwf]
  intro p hp
  have hks := (List.of_mem_zip hp).1
  have hvs := (List.of_mem_zip hp).2
  have hk : p.1 ∈ tokNames ss := by
    rw [hfp] at hks
    exact (mem_dedupF _ _).mp hks
  have hokk := hwf _ (tok_mem_of_mem_tokNames hk)
  rcases forall₂_mem_exists hforall hvs with ⟨l, hl, hvl⟩
  rcases List.mem_map.mp hl with ⟨ph, _, rfl⟩
  rcases lookupD_mem_values hvl with ⟨pr, hpr, _, hvpr⟩
  exact ⟨hokk.1, hokk.2.1, (hd pr hpr p.2 hvpr).1, (hd pr hpr p.2 hvpr).2⟩

theorem unresolved_of_not_all (t : Str) (d : Dict)
    (hres : ¬ ∀ ph ∈ find_placeholders t, memD d ph = true ∧ lookupD d ph ≠ []) :
    ∃ ph ∈ find_placeholders t, memD d ph = false ∨ lookupD d ph = [] := by
  push_neg at hres
  rcases hres with ⟨ph, hph, hcon⟩
  refine ⟨ph, hph, ?_⟩
  by_cases hmem : memD d ph = true
  · exact Or.inr (hcon hmem)
  · exact Or.inl (by simpa using hmem)

theorem generate_render_subst (ss : List Shape) (d : Dict) (lim : Int)
    (hwf : wfShapes ss) (hd : ∀ p ∈ d, ∀ v ∈ p.2, '[' ∉ v ∧ ']' ∉ v) :
    ∀ q ∈ (generate_permutations (render ss) d lim).questions,
      ∃ combo, List.Forall₂ (fun x l => x ∈ l) combo
          ((find_placeholders (render ss)).map (lookupD d)) ∧
        q = render (ss.map (bindShape ((find_placeholders (render ss)).zip combo))) := by
  intro q hq
  by_cases hne : find_placeholders (render ss) = []
  · rw [generate_no_ph d lim hne] at hq
    simp at hq
    subst hq
    refine ⟨[], by rw [hne]; simp, ?_⟩
    rw [hne]
    have h1 : ss.map (bindShape (List.zip [] [])) = ss := by
      have h2 : ss.map (bindShape []) = ss.map id :=
        List.map_congr_left (fun s _ => bindShape_nil s)
      simpa [List.map_id] using h2
    rw [h1]
  · by_cases hres : ∀ ph ∈ find_placeholders (render ss), memD d ph = true ∧ lookupD d ph ≠ []
    · rw [generate_success lim hne hres] at hq
      rcases List.mem_map.mp hq with ⟨combo, hcombo, rfl⟩
      have hcombo' : combo ∈ prodLists ((find_placeholders (render ss)).map (lookupD d)) :=
        List.mem_of_mem_take hcombo
      have hforall := (mem_prodLists _ _).mp hcombo'
      refine ⟨combo, hforall, ?_⟩
      have hbs := zip_bindings_ok ss d hwf hd hforall
      exact substCombo_render _ ss hwf
        (fun p hp => ⟨(hbs p hp).1, (hbs p hp).2.1, (hbs p hp).2.2.1⟩)
    · rcases generate_fail lim (unresolved_of_not_all _ d hres) with ⟨ph, _, _, hgen⟩
      rw [hgen] at hq
      simp at hq

/-! ### Claim theorems -/

/-- C7: for every template string containing no bracketed placeholder and every
candidate map, `generate_permutations` returns exactly the one-element list
holding the template unchanged (no warnings, map untouched), for every
limit ≥ 1. -/
theorem claim_C7 (t : Str) (d : Dict) (lim : Int)
    (h : find_placeholders t = []) (hlim : 1 ≤ lim) :
    generate_permutations t d lim = ⟨[t], [], d⟩ :=
  generate_no_ph d lim h

/-- Witness for C7 at a concrete placeholder-free template. -/
theorem claim_C7_witness :
    generate_permutations (("How many patients were admitted?").toList) [] 7
      = ⟨[("How many patients were admitted?").toList], [], []⟩ :=
  claim_C7 _ _ _ (by decide) (by decide)

/-- C9: with limit ≤ 0, a template containing at least one placeholder (all
resolving to non-empty candidate lists) yields the empty question list, while
a placeholder-free template still yields the one-element list holding itself:
the permutation limit is never applied to placeholder-free templates. -/
theorem claim_C9 (t : Str) (d : Dict) (lim : Int) (hlim : lim ≤ 0) :
    (find_placeholders t ≠ [] →
      (∀ ph ∈ find_placeholders t, memD d ph = true ∧ lookupD d ph ≠ []) →
      (generate_permutations t d lim).questions = []) ∧
    (find_placeholders t = [] → (generate_permutations t d lim).questions = [t]) := by
  constructor
  · intro hne h
    rw [generate_success lim hne h]
    simp [Int.toNat_of_nonpos hlim]
  · intro h
    rw [generate_no_ph d lim h]

/-- Witness for C9: a placeholder template with a non-empty candidate list and
a placeholder-free template, both at limit −2. -/
theorem claim_C9_witness :
    (generate_permutations (("[A]").toList)
        [((("A").toList), [("x").toList])] (-2)).questions = [] ∧
    (generate_permutations (("b").toList) [] (-2)).questions = [("b").toList] :=
  ⟨(claim_C9 _ _ _ (by decide)).1 (by decide) (by decide),
   (claim_C9 _ _ _ (by decide)).2 (by decide)⟩

/-- C10: `generate_permutations` never mutates its placeholder map: every
dictionary access is guarded by a membership test, so the dictionary after the
call equals the dictionary passed in, for every template, map and limit, even
though the map is a defaultdict whose unguarded lookup would insert. -/
theorem claim_C10 (t : Str) (d : Dict) (lim : Int) :
    (generate_permutations t d lim).dict = d :=
  generate_dict_eq t d lim

/-- C1 counterexample: at limit 0 a placeholder-free template yields one
question (the template itself), while the claimed count
min(limit, product over the empty set of placeholders) is 0. -/
theorem claim_C1_counterexample :
    (generate_permutations (("a").toList) [] 0).questions.length = 1 ∧
    min ((0 : Int).toNat)
      (((find_placeholders (("a").toList)).map
        (fun ph => (lookupD [] ph).length)).prod) = 0 := by
  constructor
  · decide
  · decide

/-- C1 (amended: for every limit ≥ 1): when every placeholder of the template
resolves to a non-empty candidate list, the number of generated questions is
exactly min(limit, product of the candidate-list sizes of the placeholders
occurring in the template). -/
theorem claim_C1 (t : Str) (d : Dict) (lim : Int) (hlim : 1 ≤ lim)
    (h : ∀ ph ∈ find_placeholders t, memD d ph = true ∧ lookupD d ph ≠ []) :
    (generate_permutations t d lim).questions.length =
      min lim.toNat (((find_placeholders t).map (fun ph => (lookupD d ph).length)).prod) := by
  by_cases hne : find_placeholders t = []
  · rw [generate_no_ph d lim hne, hne]
    have h1 : 1 ≤ lim.toNat := by omega
    simp
    omega
  · rw [generate_success lim hne h]
    simp only [GenOut.questions, List.length_map, List.length_take, length_prodLists,
      List.map_map]
    rfl

/-- Witness for C1 at a 2×3 template with limit 4. -/
theorem claim_C1_witness :
    (generate_permutations (("[A] and [B]").toList)
        [((("A").toList), [("x").toList, ("y").toList]),
         ((("B").toList), [("u").toList, ("v").toList, ("w").toList])] 4).questions.length =
      min ((4 : Int).toNat)
        (((find_placeholders (("[A] and [B]").toList)).map
          (fun ph => (lookupD
            [((("A").toList), [("x").toList, ("y").toList]),
             ((("B").toList), [("u").toList, ("v").toList, ("w").toList])] ph).length)).prod) :=
  claim_C1 _ _ _ (by decide) (by decide)

/-- C6: if some placeholder of the template is missing from the candidate map
or maps to the empty list, the template yields no questions and exactly one
warning naming an offending placeholder and the template; and the generation
pass runs every template against the same cache, so the failure is confined
to that template and later templates are processed normally. -/
theorem claim_C6 (t : Str) (d : Dict) (lim : Int)
    (h : ∃ ph ∈ find_placeholders t, memD d ph = false ∨ lookupD d ph = []) :
    ((generate_permutations t d lim).questions = [] ∧
      ∃ ph ∈ find_placeholders t, (memD d ph = false ∨ lookupD d ph = []) ∧
        (generate_permutations t d lim).warnings = [(ph, t)]) ∧
    ∀ (ts : List Str) (d₀ : Dict),
      (genPass lim d₀ ts).1 =
        (ts.map (fun u => (generate_permutations u d₀ lim).questions)).flatten := by
  constructor
  · rcases generate_fail lim h with ⟨ph, hmem, hb, hgen⟩
    exact ⟨by rw [hgen], ph, hmem, hb, by rw [hgen]⟩
  · intro ts d₀
    exact genPass_questions lim ts d₀

/-- Witness for C6: template `[A][B]` with only `A` bound in the map. -/
theorem claim_C6_witness :
    (generate_permutations (("[A][B]").toList)
        [((("A").toList), [("u").toList])] 5).questions = [] ∧
    ∃ ph ∈ find_placeholders (("[A][B]").toList),
      (memD [((("A").toList), [("u").toList])] ph = false ∨
        lookupD [((("A").toList), [("u").toList])] ph = []) ∧
      (generate_permutations (("[A][B]").toList)
        [((("A").toList), [("u").toList])] 5).warnings = [(ph, ("[A][B]").toList)] :=
  (claim_C6 _ _ _ (by decide)).1

/-- C3: combinations are enumerated in standard Cartesian-product order over
the discovered placeholder list: in the product of a first candidate list with
the remaining lists, the element at index i·B + j (B the size of the product
of the rest) binds the first placeholder to its i-th candidate and the rest to
the j-th remaining tuple, so the first placeholder varies slowest and the last
fastest; in particular with limit 1 (and all candidate lists non-empty) the
single output is the template with every placeholder bound to the first
element of its candidate list. -/
theorem claim_C3 :
    (∀ (xs : List Str) (ls : List (List Str)) (i j : Nat),
      i < xs.length → j < (prodLists ls).length →
      (prodLists (xs :: ls))[i * (prodLists ls).length + j]? =
        ((prodLists ls)[j]?).map (fun c => xs[i]! :: c)) ∧
    (∀ (t : Str) (d : Dict), find_placeholders t ≠ [] →
      (∀ ph ∈ find_placeholders t, memD d ph = true ∧ lookupD d ph ≠ []) →
      (generate_permutations t d 1).questions =
        [substCombo t ((find_placeholders t).zip
          (((find_placeholders t).map (lookupD d)).map List.headI))]) := by
  constructor
  · exact fun xs ls i j hi hj => getElem?_prodLists ls xs i j hi hj
  · intro t d hne h
    rw [generate_success 1 hne h]
    have hnonempty : ∀ l ∈ (find_placeholders t).map (lookupD d), l ≠ [] := by
      intro l hl
      rcases List.mem_map.mp hl with ⟨ph, hph, rfl⟩
      exact (h ph hph).2
    have hPne : prodLists ((find_placeholders t).map (lookupD d)) ≠ [] :=
      prodLists_ne_nil _ hnonempty
    show ((prodLists ((find_placeholders t).map (lookupD d))).take (Int.toNat 1)).map _ = _
    rw [show Int.toNat 1 = 1 from rfl, take_one_of_ne_nil hPne,
      headI_prodLists _ hnonempty]
    simp

/-- Candidate map for the 3×3 C3 witness scenario. -/
def wdictC3 : Dict :=
  [((("A").toList), [("a1").toList, ("a2").toList, ("a3").toList]),
   ((("B").toList), [("b1").toList, ("b2").toList, ("b3").toList])]

/-- Witness for C3: product-order indexing at i = 1, j = 0, and the limit-1
run on a 3×3 template, which returns the first combination in Cartesian
order. -/
theorem claim_C3_witness :
    ((prodLists [[("x").toList, ("y").toList], [("u").toList, ("v").toList]])[1 * (prodLists [[("u").toList, ("v").toList]]).length + 0]? =
      ((prodLists [[("u").toList, ("v").toList]])[0]?).map
        (fun c => [("x").toList, ("y").toList][1]! :: c)) ∧
    (generate_permutations (("[A][B]").toList) wdictC3 1).questions =
      [substCombo (("[A][B]").toList) ((find_placeholders (("[A][B]").toList)).zip
        (((find_placeholders (("[A][B]").toList)).map (lookupD wdictC3)).map List.headI))] :=
  ⟨claim_C3.1 [("x").toList, ("y").toList] [[("u").toList, ("v").toList]] 1 0
      (by decide) (by decide),
   claim_C3.2 _ wdictC3 (by decide) (by decide)⟩

theorem countP_eq_of_nodup {α : Type} [DecidableEq α] :
    ∀ {l : List α}, l.Nodup → ∀ k : α,
    l.countP (fun x => decide (x = k)) = if k ∈ l then 1 else 0 := by
  intro l
  induction l with
  | nil => intro _ k; simp
  | cons x l ih =>
    intro hnd k
    have hx : x ∉ l := (List.nodup_cons.mp hnd).1
    have hnd' := (List.nodup_cons.mp hnd).2
    rw [List.countP_cons]
    by_cases hk : x = k
    · subst hk
      simp [ih hnd', hx]
    · have hk' : ¬ (k = x) := fun hc => hk hc.symm
      simp [ih hnd', hk, hk', List.mem_cons]

/-- C8: within one run the example provider is invoked exactly once per
distinct placeholder name needed across all templates: the fetch pass logs
exactly the duplicate-free needed-name list, so a name referenced by several
templates is fetched once and every later resolution reads the cache. -/
theorem claim_C8 (provider : Str → List Str) (templates : List Str) :
    (fetchedCache provider templates).2 = neededPlaceholders templates ∧
    (neededPlaceholders templates).Nodup ∧
    ∀ k : Str, ((fetchedCache provider templates).2.countP (fun x => decide (x = k))) =
      if k ∈ neededPlaceholders templates then 1 else 0 := by
  have hnd : (neededPlaceholders templates).Nodup := by
    rw [neededPlaceholders]
    exact dedupF_nodup _
  have hlog : (fetchedCache provider templates).2 = neededPlaceholders templates := by
    rw [fetchedCache_eq]
  refine ⟨hlog, hnd, ?_⟩
  intro k
  rw [hlog]
  have hcp := countP_eq_of_nodup hnd k
  by_cases hk : k ∈ neededPlaceholders templates
  · rw [if_pos hk] at hcp ⊢
    exact hcp
  · rw [if_neg hk] at hcp ⊢
    exact hcp

/-- Provider for the C5 witness. -/
def wprovC5 : Str → List Str :=
  fun k => if k = outcomeKey then [("mortality").toList, ("sepsis").toList]
           else [("WBC").toList]

/-- Templates for the C5 witness. -/
def wtempC5 : List Str := [("Does [Outcome] change with [Measurement]?").toList]

/-- C5: when the Outcome or the Measurement category was fetched, the
candidate list cached under the alias "Outcome/Measurement" equals the
deduplicated union of the cached Outcome and Measurement lists truncated to
the fetch limit, computed once after the fetch pass; and the generation pass
reads the resulting cache unchanged for every template, so the alias entry is
reused as is. -/
theorem claim_C5 (provider : Str → List Str) (templates : List Str) (fetchLimit : Nat)
    (hg : memD (fetchedCache provider templates).1 outcomeKey = true ∨
          memD (fetchedCache provider templates).1 measurementKey = true) :
    lookupD (mainCache provider templates fetchLimit) aliasKey =
      (dedupF (lookupD (fetchedCache provider templates).1 outcomeKey ++
               lookupD (fetchedCache provider templates).1 measurementKey)).take fetchLimit ∧
    ∀ (lim : Int) (ts : List Str),
      (genPass lim (mainCache provider templates fetchLimit) ts).1 =
        (ts.map (fun u =>
          (generate_permutations u (mainCache provider templates fetchLimit) lim).questions)).flatten := by
  constructor
  · have hb : (memD (fetchedCache provider templates).1 outcomeKey ||
        memD (fetchedCache provider templates).1 measurementKey) = true := by
      rcases hg with h | h <;> simp [h]
    rw [mainCache, aliasStep, if_pos hb]
    exact lookupD_dictSet_self _ _ _
  · intro lim ts
    exact genPass_questions lim ts _

/-- Witness for C5 with a one-template batch needing Outcome and
Measurement. -/
theorem claim_C5_witness :
    lookupD (mainCache wprovC5 wtempC5 20) aliasKey =
      (dedupF (lookupD (fetchedCache wprovC5 wtempC5).1 outcomeKey ++
               lookupD (fetchedCache wprovC5 wtempC5).1 measurementKey)).take 20 :=
  (claim_C5 wprovC5 wtempC5 20 (by decide)).1

/-- C2 counterexample: a candidate value may itself contain a bracketed token
of the template; substitution is plain string replacement, so the token
survives in the output: `[A]` with candidate value `x[A]y` yields the question
`x[A]y`, which still contains the placeholder token `[A]`. -/
theorem claim_C2_counterexample :
    (generate_permutations (("[A]").toList)
        [((("A").toList), [("x[A]y").toList])] 1).questions = [("x[A]y").toList] ∧
    ("A").toList ∈ find_placeholders (("[A]").toList) ∧
    hasSubstring ('[' :: (("A").toList ++ [']'])) (("x[A]y").toList) :=
  ⟨by decide, by decide, ("x").toList, ("y").toList, by decide⟩

/-- C2 (amended: for templates of well-formed shape, alternating bracket-free
literal runs with tokens whose names contain no bracket and no newline, and
for candidate maps all of whose values contain neither `[` nor `]`): every
generated question contains no bracketed token of any placeholder of the
original template — full substitution. -/
theorem claim_C2 (ss : List Shape) (d : Dict) (lim : Int)
    (hwf : wfShapes ss)
    (hd : ∀ p ∈ d, ∀ v ∈ p.2, '[' ∉ v ∧ ']' ∉ v) :
    ∀ q ∈ (generate_permutations (render ss) d lim).questions,
      ∀ n ∈ find_placeholders (render ss), ¬ hasSubstring ('[' :: (n ++ [']'])) q := by
  intro q hq n hn
  rcases generate_render_subst ss d lim hwf hd q hq with ⟨combo, hforall, rfl⟩
  have hfp : find_placeholders (render ss) = dedupF (tokNames ss) := by
    rw [find_placeholders, findall_render ss hwf]
  have hbs := zip_bindings_ok ss d hwf hd hforall
  have hlen : (find_placeholders (render ss)).length = combo.length := by
    have h := List.Forall₂.length_eq hforall
    simp at h
    omega
  have hcov : ∀ m ∈ tokNames ss, ∃ p ∈ (find_placeholders (render ss)).zip combo, p.1 = m := by
    intro m hm
    apply exists_mem_zip_of_mem
    · rw [hfp]
      exact (mem_dedupF _ _).mpr hm
    · exact hlen
  have hnb := no_bracket_render_bindShape hwf (fun p hp => (hbs p hp).2.2.1) hcov
  intro hsub
  exact hnb (mem_of_hasSubstring hsub (by simp))

/-- Template shapes for the C2 witness. -/
def wshapesC2 : List Shape :=
  [Shape.lit (("Does ").toList), Shape.tok (("A").toList), Shape.lit ((" help?").toList)]

/-- Candidate map for the C2 witness. -/
def wdictC2 : Dict := [((("A").toList), [("aspirin").toList])]

/-- Witness for C2: the single generated question of the witness template is
free of the template token `[A]`. -/
theorem claim_C2_witness :
    ¬ hasSubstring ('[' :: (("A").toList ++ [']'])) (("Does aspirin help?").toList) :=
  claim_C2 wshapesC2 wdictC2 3 (by decide) (by decide)
    (("Does aspirin help?").toList) (by decide) (("A").toList) (by decide)

/-- C4: the same placeholder name occurring several times is discovered once,
so every generated question binds all its occurrences to the same candidate
value (for well-formed templates with bracket-free candidate values, each
question is the template with every token of name n replaced by the one
value bound to n), and the number of outputs is bounded by the product over
distinct placeholder names; concretely, the double-Measurement template with
two candidates and limit 10 yields exactly its two consistent outputs, not
four. -/
theorem claim_C4 :
    ((generate_permutations (("Compare [Measurement] to [Measurement] over time").toList)
        [((("Measurement").toList), [("WBC").toList, ("creatinine").toList])] 10).questions =
      [("Compare WBC to WBC over time").toList,
       ("Compare creatinine to creatinine over time").toList]) ∧
    (∀ (ss : List Shape) (d : Dict) (lim : Int), wfShapes ss →
      (∀ p ∈ d, ∀ v ∈ p.2, '[' ∉ v ∧ ']' ∉ v) →
      (∀ q ∈ (generate_permutations (render ss) d lim).questions,
        ∃ combo, List.Forall₂ (fun x l => x ∈ l) combo
            ((find_placeholders (render ss)).map (lookupD d)) ∧
          q = render (ss.map (bindShape ((find_placeholders (render ss)).zip combo)))) ∧
      ((∀ ph ∈ find_placeholders (render ss), memD d ph = true ∧ lookupD d ph ≠ []) →
        (generate_permutations (render ss) d lim).questions.length ≤
          ((find_placeholders (render ss)).map (fun ph => (lookupD d ph).length)).prod)) := by
  constructor
  · decide
  · intro ss d lim hwf hd
    constructor
    · exact generate_render_subst ss d lim hwf hd
    · intro hres
      by_cases hne : find_placeholders (render ss) = []
      · rw [generate_no_ph d lim hne, hne]
        simp
      · rw [generate_success lim hne hres]
        simp only [GenOut.questions, List.length_map, List.length_take, length_prodLists,
          List.map_map]
        exact min_le_right _ _

/-- Template shapes for the C4 witness (the double-Measurement scenario). -/
def wshapesC4 : List Shape :=
  [Shape.lit (("Compare ").toList), Shape.tok (("Measurement").toList),
   Shape.lit ((" to ").toList), Shape.tok (("Measurement").toList),
   Shape.lit ((" over time").toList)]

/-- Candidate map for the C4 witness. -/
def wdictC4 : Dict :=
  [((("Measurement").toList), [("WBC").toList, ("creatinine").toList])]

/-- Witness for C4: the double-Measurement scenario respects the
distinct-name product bound. -/
theorem claim_C4_witness :
    (generate_permutations (render wshapesC4) wdictC4 10).questions.length ≤
      ((find_placeholders (render wshapesC4)).map
        (fun ph => (lookupD wdictC4 ph).length)).prod :=
  (claim_C4.2 wshapesC4 wdictC4 10 (by decide) (by decide)).2 (by decide)

end MedMCP
